import Mathlib

/-!
Shallow embedding of the skills loader (src/claude-skills-system/bin/load-skills.py)
and proofs of the specified properties of its dependency-resolution and
document-loading pipeline.

Conventions of the embedding:
  - document text is modelled at the character level (List Char, the .data of
    a Lean String); skill names and other atomic strings stay Lean String;
  - the skill store (the SKILLS_DIR directory) is a snapshot modelled as an
    association list from skill name to raw document text; storeFind models
    both the existence check and the read of SKILLS_DIR / (name ++ ".md");
  - the unbounded Python recursion of resolve_skill_dependencies is given a
    fuel parameter, proved sufficient at store.length + 1
    (resolve_fuel_sufficient below);
  - stderr diagnostics are modelled as an explicit observation channel, and
    sys.exit(1) on a malformed JSON configuration as Except.error.
-/

set_option maxHeartbeats 1000000

deriving instance DecidableEq for Except

namespace LoadSkills

/-- Whitespace as stripped by Python str.strip and matched by the regex
class backslash-s (ASCII part). -/
def isPySpace (c : Char) : Bool :=
  c = ' ' || c = '\t' || c = '\n' || c = '\r' || c = '\x0b' || c = '\x0c'

/-- str.strip(): drop whitespace from both ends (lines 89, 94). -/
def pyStrip (l : List Char) : List Char :=
  ((l.dropWhile isPySpace).reverse.dropWhile isPySpace).reverse

/-- Quote characters stripped from list elements at line 94. -/
def isQuote (c : Char) : Bool := c = '"' || c = Char.ofNat 39

/-- Drop quote characters from both ends (line 94). -/
def stripQuotes (l : List Char) : List Char :=
  ((l.dropWhile isQuote).reverse.dropWhile isQuote).reverse

/-- str.split on a separator character (lines 83, 95): empty pieces kept,
split of the empty text is one empty piece. -/
def splitOnChar (sep : Char) : List Char → List (List Char)
  | [] => [[]]
  | c :: rest =>
    if c = sep then [] :: splitOnChar sep rest
    else
      match splitOnChar sep rest with
      | [] => [[c]]
      | l :: ls => (c :: l) :: ls

/-- A frontmatter value: a plain string or a list of strings (lines 92-98). -/
inductive FMValue where
  | str (s : String)
  | list (l : List String)
deriving DecidableEq

/-- Lines 89-98: strip the raw matched value; a value wrapped in brackets is
split on commas into a list with whitespace then quotes stripped from each
element; anything else is a plain string. -/
def parseValue (raw : List Char) : FMValue :=
  let v := pyStrip raw
  if v.take 1 = ['['] ∧ v.reverse.take 1 = [']'] then
    FMValue.list ((splitOnChar ',' ((v.drop 1).dropLast)).map
      (fun s => (stripQuotes (pyStrip s)).asString))
  else
    FMValue.str v.asString

/-- Python regex word characters (ASCII): letters, digits, underscore. -/
def isWordChar (c : Char) : Bool := c.isAlphanum || c = '_'

/-- Line 86: the per-line regex match, key colon value.  Some key/value for a
matching line, none for a line that is silently ignored.  The regex needs a
nonempty word-character key, a colon, and at least one character after the
colon; the captured value is stripped before use, which parseValue performs. -/
def parseLine (line : List Char) : Option (String × FMValue) :=
  match line.takeWhile isWordChar, line.dropWhile isWordChar with
  | [], _ => none
  | _, [] => none
  | key, c :: rest =>
    if c = ':' ∧ rest ≠ [] then some (key.asString, parseValue rest)
    else none

/-- Lookup in the frontmatter dict (association list with unique keys). -/
def fmLookup : List (String × FMValue) → String → Option FMValue
  | [], _ => none
  | (k', v) :: rest, k => if k' = k then some v else fmLookup rest k

/-- Dict assignment frontmatter[key] = value (line 98): overwrite the binding
in place if the key is present, else append a new binding. -/
def fmSet (m : List (String × FMValue)) (k : String) (v : FMValue) :
    List (String × FMValue) :=
  if (fmLookup m k).isSome then
    m.map (fun p => if p.1 = k then (k, v) else p)
  else m ++ [(k, v)]

/-- Lines 82-98: fold the frontmatter lines into the metadata dict. -/
def parseFMtext (txt : List Char) : List (String × FMValue) :=
  (splitOnChar '\n' txt).foldl
    (fun m line =>
      match parseLine line with
      | none => m
      | some (k, v) => fmSet m k v) []

/-- First occurrence of the closing delimiter (newline, three dashes,
newline) -- the non-greedy part of the regex at line 73.  Splits l into the
minimal pre and the remainder post with l = pre ++ delim ++ post. -/
def findDelim : List Char → Option (List Char × List Char)
  | [] => none
  | c :: cs =>
    if c = '\n' ∧ cs.take 4 = ['-', '-', '-', '\n'] then some ([], cs.drop 4)
    else
      match findDelim cs with
      | some (pre, post) => some (c :: pre, post)
      | none => none

/-- parse_skill_frontmatter (lines 71-100) at the character level: the
document matches the header regex iff it opens with three dashes and a
newline and the closing delimiter occurs later; on a match the metadata is
parsed from the enclosed text and the body is everything after the closing
delimiter, otherwise no metadata and the unchanged text are returned. -/
def parseFMChars (content : List Char) :
    Option (List (String × FMValue)) × List Char :=
  if content.take 4 = ['-', '-', '-', '\n'] then
    match findDelim (content.drop 4) with
    | some (fmTxt, body) => (some (parseFMtext fmTxt), body)
    | none => (none, content)
  else (none, content)

/-- parse_skill_frontmatter on a String document. -/
def parse_skill_frontmatter (content : String) :
    Option (List (String × FMValue)) × String :=
  ((parseFMChars content.data).1, (parseFMChars content.data).2.asString)

/-- Whether the document opens with a well-delimited metadata header
(whether the regex at line 73 matches). -/
def hasHeader (content : List Char) : Bool :=
  content.take 4 == ['-', '-', '-', '\n'] && (findDelim (content.drop 4)).isSome

/-- The skills directory: a snapshot mapping skill names to raw document
text.  An entry (n, c) stands for the file SKILLS_DIR / (n ++ ".md") with
content c. -/
abbrev Store := List (String × String)

/-- Existence check plus read of a skill document (lines 121-123, 127-128,
193-197). -/
def storeFind : Store → String → Option String
  | [], _ => none
  | (k, v) :: rest, name => if k = name then some v else storeFind rest name

/-- Lines 134-137: the requires value of a parsed frontmatter, with a scalar
normalized to a one-element list; no frontmatter or no requires key means the
empty list.  (A falsy empty dict skips the lookup in the source; the lookup
in an empty dict returns nothing, so the result agrees.) -/
def getRequires (fm : Option (List (String × FMValue))) : List String :=
  match fm with
  | none => []
  | some m =>
    match fmLookup m "requires" with
    | none => []
    | some (FMValue.list l) => l
    | some (FMValue.str s) => [s]

/-- The direct requirement list of a name, exactly as the resolver computes
it: nothing for an undocumented name, else the requires of its parsed
frontmatter. -/
def reqList (store : Store) (name : String) : List String :=
  match storeFind store name with
  | none => []
  | some content => getRequires (parseFMChars content.data).1

/-- The direct requirement relation of the store: an edge from a documented
skill to each name its frontmatter requires. -/
def Req (store : Store) (a b : String) : Prop := b ∈ reqList store a

/-- Resolver state: the resolved and resolving sets, plus two observation
channels: cycles records the circular-dependency diagnostics printed at
line 118 (in emission order), reads records each document read performed at
lines 127-128. -/
structure RState where
  resolved : Finset String
  resolving : Finset String
  cycles : List String
  reads : List String
deriving DecidableEq

/-- The fresh state made by the Python default arguments resolved=None,
resolving=None (lines 106-113): both sets empty. -/
def initState : RState := ⟨∅, ∅, [], []⟩

/-- The for-loop at lines 139-140: resolve each required name in order,
threading the shared state and concatenating the returned sub-sequences. -/
def resolveLoop (f : String → RState → Option (List String × RState)) :
    List String → RState → Option (List String × RState)
  | [], st => some ([], st)
  | n :: rest, st =>
    match f n st with
    | none => none
    | some (d1, st1) =>
      match resolveLoop f rest st1 with
      | none => none
      | some (d2, st2) => some (d1 ++ d2, st2)

/-- resolve_skill_dependencies (lines 103-146).  The Python recursion has no
explicit bound; its termination is enforced by the growing resolving set
over the finite skill directory.  The embedding makes the recursion depth a
fuel parameter, proved sufficient at store.length + 1
(resolve_fuel_sufficient below), which is the depth the source can reach.
The all_skills argument of the source is threaded through unchanged and
never read, so it is omitted. -/
def resolve_skill_dependencies (store : Store) :
    Nat → String → RState → Option (List String × RState)
  | 0, _, _ => none
  | fuel + 1, name, st =>
    if name ∈ st.resolved then some ([], st)
    else if name ∈ st.resolving then
      some ([], { st with cycles := st.cycles ++ [name] })
    else
      match storeFind store name with
      | none => some ([], st)
      | some content =>
        match resolveLoop (resolve_skill_dependencies store fuel)
            (getRequires (parseFMChars content.data).1)
            { st with resolving := insert name st.resolving,
                      reads := st.reads ++ [name] } with
        | none => none
        | some (deps, st2) =>
          some (deps ++ [name],
            { st2 with resolved := insert name st2.resolved,
                       resolving := st2.resolving.erase name })

/-- The fuel used by the embedding for top-level resolver calls. -/
def fuelFor (store : Store) : Nat := store.length + 1

/-- Lines 181-184: merge one returned dependency sub-sequence into the
global order, skipping names already seen. -/
def mergeSeen : List String → Finset String → List String →
    List String × Finset String
  | [], seen, order => (order, seen)
  | d :: ds, seen, order =>
    if d ∈ seen then mergeSeen ds seen order
    else mergeSeen ds (insert d seen) (order ++ [d])

/-- Lines 176-184: expand every configured skill and merge the results.
Every top-level call passes no resolved/resolving arguments, so the Python
defaults allocate fresh empty sets for each call (initState); nothing is
shared between top-level expansions except the seen set of the merge.
Returns the global order, the cycle diagnostics and the reads performed. -/
def assembleOrder (store : Store) :
    List String → Finset String → List String → List String → List String →
    List String × List String × List String
  | [], _, order, cycles, reads => (order, cycles, reads)
  | s :: rest, seen, order, cycles, reads =>
    match resolve_skill_dependencies store (fuelFor store) s initState with
    | none => assembleOrder store rest seen order cycles reads
    | some (deps, st) =>
      let p := mergeSeen deps seen order
      assembleOrder store rest p.2 p.1 (cycles ++ st.cycles) (reads ++ st.reads)

/-- The final global load order (all_skills_ordered, lines 176-184). -/
def all_skills_ordered (store : Store) (skills : List String) : List String :=
  (assembleOrder store skills ∅ [] [] []).1

/-- The dependency list returned by one top-level resolver invocation
(line 180), which starts from fresh empty sets. -/
def depsOf (store : Store) (s : String) : List String :=
  match resolve_skill_dependencies store (fuelFor store) s initState with
  | none => []
  | some (deps, _) => deps

/-- The concatenation of all top-level resolution results in request order:
the stream of resolutions before merge deduplication. -/
def resolutionStream (store : Store) (skills : List String) : List String :=
  (skills.map (depsOf store)).flatten

/-- Per-skill metadata record collected in json mode (lines 204-210); the
path field is determined by the name and is not repeated here. -/
structure SkillMeta where
  name : String
  frontmatter : Option (List (String × FMValue))
  size : Nat
deriving DecidableEq

/-- Lines 186-212: load each skill of the final order; an existing document
contributes its name to loaded, its stripped body to the content list and,
in json mode, a metadata record; an absent one goes to the missing list.
Returns (loaded, missing, contents, metadata). -/
def loadEach (store : Store) (jsonMode : Bool) :
    List String → List String × List String × List String × List SkillMeta
  | [] => ([], [], [], [])
  | n :: rest =>
    match storeFind store n with
    | some raw =>
      let r := loadEach store jsonMode rest
      (n :: r.1, r.2.1, (parseFMChars raw.data).2.asString :: r.2.2.1,
        (if jsonMode then [⟨n, (parseFMChars raw.data).1, raw.length⟩] else [])
          ++ r.2.2.2)
    | none =>
      let r := loadEach store jsonMode rest
      (r.1, n :: r.2.1, r.2.2.1, r.2.2.2)

inductive ConfigFormat
  | json
  | text
deriving DecidableEq

/-- The configuration handed to the assembler: the ordered requested skill
names and which on-disk format produced them.  The raw configuration object
echoed in json output is not modelled beyond the skills list. -/
structure Config where
  skills : List String
  format : ConfigFormat
deriving DecidableEq

/-- State of the optional .claude-skills.json of a project: absent, present
but failing json.load (line 48), or parsed with the given value of
config.get(skills, []). -/
inductive JsonConfigFile
  | absent
  | malformed
  | wellFormed (skills : List String)
deriving DecidableEq

/-- The two candidate configuration files of a project: the structured one
and the line-oriented .claude-skills (given as its raw lines). -/
structure ProjectFiles where
  jsonFile : JsonConfigFile
  textFile : Option (List String)
deriving DecidableEq

/-- line.startswith with a hash (line 59). -/
def startsHash (l : String) : Bool := l.data.take 1 == ['#']

/-- line.strip() on a String (lines 57-59). -/
def stripStr (s : String) : String := (pyStrip s.data).asString

/-- load_skills_config (lines 35-68): the structured format is tried first
and a parse failure is fatal (sys.exit(1), modelled as Except.error); the
text format keeps each stripped nonempty non-comment line; ok none is the
no-configuration-found result. -/
def load_skills_config (pf : ProjectFiles) : Except Unit (Option Config) :=
  match pf.jsonFile with
  | JsonConfigFile.malformed => Except.error ()
  | JsonConfigFile.wellFormed skills =>
    Except.ok (some ⟨skills, ConfigFormat.json⟩)
  | JsonConfigFile.absent =>
    match pf.textFile with
    | some lines =>
      Except.ok (some ⟨(lines.map stripStr).filter
        (fun l => !(l == "") && !(startsHash l)), ConfigFormat.text⟩)
    | none => Except.ok none

/-- Stderr diagnostics of one run, in emission order. -/
inductive Diag
  | noConfigFound
  | noActiveSkills
  | circular (name : String)
  | loadedSummary (names : List String)
  | missingSummary (names : List String)
deriving DecidableEq

/-- The structured report emitted in json mode (lines 222-229); the project
path echo is identity data and not modelled. -/
structure Report where
  configuration : Config
  loadedSkills : List String
  missingSkills : List String
  skills : List SkillMeta
deriving DecidableEq

/-- The primary output of a run: the concatenated plain text, or one of the
two json payload shapes (an error object, or the structured report).
Distinct values serialize to distinct strings. -/
inductive Output
  | text (content : String)
  | jsonError (msg : String)
  | jsonReport (r : Report)
deriving DecidableEq

/-- The separator joining skill bodies in plain-text mode (line 232). -/
def SEPARATOR : String := "\n\n---\n\n"

/-- load_skills_for_project (lines 149-232).  Result: the primary output
(the return value of the source; json output is modelled structurally)
paired with the stderr diagnostics.  Cycle diagnostics (line 118) are
printed regardless of the silent option; the configuration warnings and the
loaded/missing summaries are suppressed by it.  Except.error propagates the
fatal configuration parse failure. -/
def load_skills_for_project (store : Store) (pf : ProjectFiles)
    (jsonMode silent : Bool) : Except Unit (Output × List Diag) :=
  match load_skills_config pf with
  | Except.error e => Except.error e
  | Except.ok none =>
    Except.ok
      (if jsonMode then Output.jsonError "No skills configuration found"
       else Output.text "",
       if silent then [] else [Diag.noConfigFound])
  | Except.ok (some config) =>
    if config.skills = [] then
      Except.ok
        (if jsonMode then Output.jsonError "No active skills"
         else Output.text "",
         if silent then [] else [Diag.noActiveSkills])
    else
      let t := assembleOrder store config.skills ∅ [] [] []
      let r := loadEach store jsonMode t.1
      Except.ok
        (if jsonMode then Output.jsonReport ⟨config, r.1, r.2.1, r.2.2.2⟩
         else Output.text (String.intercalate SEPARATOR r.2.2.1),
         (t.2.1.map Diag.circular) ++
           (if silent then [] else
             (if r.1 ≠ [] then [Diag.loadedSummary r.1] else []) ++
             (if r.2.1 ≠ [] then [Diag.missingSummary r.2.1] else [])))

/-- The set of documented skill names. -/
def keysF (store : Store) : Finset String := (store.map Prod.fst).toFinset

/-- A dependency sequence is well ordered over an already-resolved set R:
every requirement of each element is already available (in R or earlier in
the sequence), or undocumented, or on a requirement cycle. -/
def OrderedOk (store : Store) : Finset String → List String → Prop
  | _, [] => True
  | R, d :: ds =>
    (∀ b ∈ reqList store d, b ∈ R ∨ storeFind store b = none ∨
      Relation.TransGen (Req store) b b) ∧
    OrderedOk store (insert d R) ds

/-- A load order is good when every requirement of each member is placed
strictly before it, or undocumented, or on a requirement cycle. -/
def GoodL (store : Store) (L : List String) : Prop :=
  ∀ pre d suf, L = pre ++ d :: suf →
    ∀ b ∈ reqList store d,
      b ∈ pre ∨ storeFind store b = none ∨ Relation.TransGen (Req store) b b

/-- Keep the first occurrence of each element not already seen (the
observable effect of the merge at lines 181-184). -/
def dedupFirst : Finset String → List String → List String
  | _, [] => []
  | seen, x :: xs =>
    if x ∈ seen then dedupFirst seen xs
    else x :: dedupFirst (insert x seen) xs

/-- Index of the first occurrence of x (length if absent). -/
def idxOf (x : String) : List String → Nat
  | [] => 0
  | y :: ys => if y = x then 0 else idxOf x ys + 1

/-- Whether the closing frontmatter delimiter occurs anywhere in the text. -/
def containsDelim : List Char → Bool
  | [] => false
  | c :: cs =>
    (c = '\n' && cs.take 4 == ['-', '-', '-', '\n']) || containsDelim cs

/-- Example store: a requires b, b requires nothing. -/
def StoreTopo : Store := [("a", "---\nrequires: b\n---\nA"), ("b", "B")]

/-- Example store: a and b require each other, c is unrelated. -/
def StoreCycle : Store :=
  [("a", "---\nrequires: b\n---\nA"),
   ("b", "---\nrequires: a\n---\nB"),
   ("c", "C")]

/-- Example store: two independent skills sharing the prerequisite c. -/
def StoreShared : Store :=
  [("a", "---\nrequires: c\n---\nA"),
   ("b", "---\nrequires: c\n---\nB"),
   ("c", "C")]

/-- Example store: one skill declaring an explicitly empty requires list. -/
def StoreEmptyReq : Store := [("s", "---\nrequires: []\n---\nbody")]

theorem storeFind_isSome_mem {store : Store} {name : String}
    (h : (storeFind store name).isSome) : name ∈ store.map Prod.fst := by
  induction store with
  | nil => simp [storeFind] at h
  | cons p rest ih =>
    rcases p with ⟨k, v⟩
    simp only [storeFind] at h
    by_cases hk : k = name
    · simp [hk]
    · rw [if_neg hk] at h
      simp [ih h]

theorem reqList_isSome {store : Store} {a b : String}
    (h : b ∈ reqList store a) : (storeFind store a).isSome := by
  unfold reqList at h
  rcases h' : storeFind store a with _ | c
  · rw [h'] at h; simp at h
  · simp

/-- A successful resolver call returns the resolving set unchanged: the
frame adds itself at line 125 and discards itself at line 144, and nested
frames are well bracketed. -/
theorem resolveLoop_resolving_eq
    (f : String → RState → Option (List String × RState))
    (hf : ∀ n st l st', f n st = some (l, st') → st'.resolving = st.resolving) :
    ∀ names st l st', resolveLoop f names st = some (l, st') →
      st'.resolving = st.resolving := by
  intro names
  induction names with
  | nil =>
    intro st l st' h
    simp only [resolveLoop, Option.some.injEq, Prod.mk.injEq] at h
    rw [← h.2]
  | cons n rest ih =>
    intro st l st' h
    rcases h1 : f n st with _ | ⟨d1, st1⟩
    · simp only [resolveLoop, h1] at h
      exact Option.noConfusion h
    · rcases h2 : resolveLoop f rest st1 with _ | ⟨d2, st2⟩
      · simp only [resolveLoop, h1, h2] at h
        exact Option.noConfusion h
      · simp only [resolveLoop, h1, h2, Option.some.injEq, Prod.mk.injEq] at h
        rw [← h.2, ih st1 d2 st2 h2, hf n st d1 st1 h1]

theorem resolve_resolving_eq (store : Store) :
    ∀ fuel name st l st',
      resolve_skill_dependencies store fuel name st = some (l, st') →
      st'.resolving = st.resolving := by
  intro fuel
  induction fuel with
  | zero => intro name st l st' h; simp [resolve_skill_dependencies] at h
  | succ fuel ih =>
    intro name st l st' h
    by_cases h1 : name ∈ st.resolved
    · simp only [resolve_skill_dependencies, if_pos h1, Option.some.injEq,
        Prod.mk.injEq] at h
      rw [← h.2]
    · by_cases h2 : name ∈ st.resolving
      · simp only [resolve_skill_dependencies, if_neg h1, if_pos h2,
          Option.some.injEq, Prod.mk.injEq] at h
        rw [← h.2]
      · rcases h3 : storeFind store name with _ | content
        · simp only [resolve_skill_dependencies, if_neg h1, if_neg h2, h3,
            Option.some.injEq, Prod.mk.injEq] at h
          rw [← h.2]
        · rcases h4 : resolveLoop (resolve_skill_dependencies store fuel)
              (getRequires (parseFMChars content.data).1)
              { st with resolving := insert name st.resolving,
                        reads := st.reads ++ [name] } with _ | ⟨deps, st2⟩
          · simp only [resolve_skill_dependencies, if_neg h1, if_neg h2, h3,
              h4] at h
            exact Option.noConfusion h
          · simp only [resolve_skill_dependencies, if_neg h1, if_neg h2, h3,
              h4, Option.some.injEq, Prod.mk.injEq] at h
            have hl := resolveLoop_resolving_eq _ (fun n st l st' h =>
              ih n st l st' h) _ _ _ _ h4
            rw [← h.2]
            simp only at hl
            simp only [hl]
            exact Finset.erase_insert h2

/-- Enough fuel for the loop, given enough fuel for each call. -/
theorem resolveLoop_isSome
    (f : String → RState → Option (List String × RState))
    (K : Finset String) (k : Nat)
    (hfp : ∀ n st l st', f n st = some (l, st') → st'.resolving = st.resolving)
    (hf : ∀ n st, (K \ st.resolving).card < k → (f n st).isSome) :
    ∀ names st, (K \ st.resolving).card < k →
      (resolveLoop f names st).isSome := by
  intro names
  induction names with
  | nil => intro st hc; simp [resolveLoop]
  | cons n rest ih =>
    intro st hc
    have h1 := hf n st hc
    rcases h1' : f n st with _ | ⟨d1, st1⟩
    · rw [h1'] at h1; simp at h1
    · have hres : st1.resolving = st.resolving := hfp n st d1 st1 h1'
      have h2 := ih st1 (by rw [hres]; exact hc)
      rcases h2' : resolveLoop f rest st1 with _ | ⟨d2, st2⟩
      · rw [h2'] at h2; simp at h2
      · simp [resolveLoop, h1', h2']

/-- The recursion terminates whenever the fuel exceeds the number of
documented skills outside the resolving set: each frame that recurses
moves a fresh documented name into resolving. -/
theorem resolve_isSome (store : Store) :
    ∀ fuel st name, ((keysF store) \ st.resolving).card < fuel →
      (resolve_skill_dependencies store fuel name st).isSome := by
  intro fuel
  induction fuel with
  | zero => intro st name hc; omega
  | succ fuel ih =>
    intro st name hc
    by_cases h1 : name ∈ st.resolved
    · simp [resolve_skill_dependencies, if_pos h1]
    · by_cases h2 : name ∈ st.resolving
      · simp [resolve_skill_dependencies, if_neg h1, if_pos h2]
      · rcases h3 : storeFind store name with _ | content
        · simp [resolve_skill_dependencies, if_neg h1, if_neg h2, h3]
        · have hmem : name ∈ keysF store := by
            exact List.mem_toFinset.mpr (storeFind_isSome_mem (by rw [h3]; simp))
          have hdiff : name ∈ keysF store \ st.resolving :=
            Finset.mem_sdiff.mpr ⟨hmem, h2⟩
          have hcard : ((keysF store) \ insert name st.resolving).card < fuel := by
            rw [Finset.sdiff_insert]
            rw [Finset.card_erase_of_mem hdiff]
            have hpos : 0 < ((keysF store) \ st.resolving).card :=
              Finset.card_pos.mpr ⟨name, hdiff⟩
            omega
          have hloop := resolveLoop_isSome
            (resolve_skill_dependencies store fuel) (keysF store) fuel
            (fun n st l st' h => resolve_resolving_eq store fuel n st l st' h)
            (fun n st h => ih st n h)
            (getRequires (parseFMChars content.data).1)
            { st with resolving := insert name st.resolving,
                      reads := st.reads ++ [name] }
            (by simpa using hcard)
          rcases h4 : resolveLoop (resolve_skill_dependencies store fuel)
              (getRequires (parseFMChars content.data).1)
              { st with resolving := insert name st.resolving,
                        reads := st.reads ++ [name] } with _ | ⟨deps, st2⟩
          · rw [h4] at hloop; simp at hloop
          · simp [resolve_skill_dependencies, if_neg h1, if_neg h2, h3, h4]

/-- State specification of the dependency loop, from the same specification
of each call: the resolved set grows by exactly the emitted names; the
emitted names are distinct, fresh (neither previously resolved nor on the
active path) and documented; and afterwards every processed name is either
resolved, or was on the active path, or is undocumented. -/
theorem resolveLoop_state_spec (store : Store)
    (f : String → RState → Option (List String × RState))
    (hfp : ∀ n st l st', f n st = some (l, st') → st'.resolving = st.resolving)
    (hf : ∀ n st l st', f n st = some (l, st') →
      (st'.resolved = st.resolved ∪ l.toFinset) ∧ l.Nodup ∧
      (∀ d ∈ l, d ∉ st.resolved ∧ d ∉ st.resolving ∧
        (storeFind store d).isSome) ∧
      (n ∈ st'.resolved ∨ n ∈ st.resolving ∨ storeFind store n = none)) :
    ∀ names st deps st', resolveLoop f names st = some (deps, st') →
      (st'.resolved = st.resolved ∪ deps.toFinset) ∧ deps.Nodup ∧
      (∀ d ∈ deps, d ∉ st.resolved ∧ d ∉ st.resolving ∧
        (storeFind store d).isSome) ∧
      (∀ n ∈ names, n ∈ st'.resolved ∨ n ∈ st.resolving ∨
        storeFind store n = none) := by
  intro names
  induction names with
  | nil =>
    intro st deps st' h
    simp only [resolveLoop, Option.some.injEq, Prod.mk.injEq] at h
    rw [← h.1, ← h.2]
    simp
  | cons n rest ih =>
    intro st deps st' h
    rcases h1 : f n st with _ | ⟨d1, st1⟩
    · simp only [resolveLoop, h1] at h
      exact Option.noConfusion h
    · rcases h2 : resolveLoop f rest st1 with _ | ⟨d2, st2⟩
      · simp only [resolveLoop, h1, h2] at h
        exact Option.noConfusion h
      · simp only [resolveLoop, h1, h2, Option.some.injEq, Prod.mk.injEq] at h
        obtain ⟨hA1, hA2, hA3, hA4⟩ := hf n st d1 st1 h1
        obtain ⟨hB1, hB2, hB3, hB4⟩ := ih st1 d2 st2 h2
        have hres : st1.resolving = st.resolving := hfp n st d1 st1 h1
        have hsub : st.resolved ⊆ st1.resolved := by
          rw [hA1]; exact Finset.subset_union_left
        have hd1sub : ∀ d ∈ d1, d ∈ st1.resolved := by
          intro d hd
          rw [hA1]
          exact Finset.mem_union_right _ (List.mem_toFinset.mpr hd)
        rw [← h.1, ← h.2]
        refine ⟨?_, ?_, ?_, ?_⟩
        · rw [hB1, hA1, List.toFinset_append, Finset.union_assoc]
        · refine List.Nodup.append hA2 hB2 ?_
          intro a ha1 ha2
          exact (hB3 a ha2).1 (hd1sub a ha1)
        · intro d hd
          rcases List.mem_append.mp hd with hd1 | hd2
          · exact hA3 d hd1
          · obtain ⟨hr, hv, hdoc⟩ := hB3 d hd2
            exact ⟨fun hc => hr (hsub hc), by rw [← hres]; exact hv, hdoc⟩
        · intro m hm
          rcases List.mem_cons.mp hm with rfl | hm'
          · rcases hA4 with hc | hc | hc
            · left
              rw [hB1]
              exact Finset.mem_union_left _ hc
            · right; left; exact hc
            · right; right; exact hc
          · rcases hB4 m hm' with hc | hc | hc
            · left; exact hc
            · right; left; rw [← hres]; exact hc
            · right; right; exact hc

/-- State specification of one resolver call (see resolveLoop_state_spec). -/
theorem resolve_state_spec (store : Store) :
    ∀ fuel name st deps st',
      resolve_skill_dependencies store fuel name st = some (deps, st') →
      (st'.resolved = st.resolved ∪ deps.toFinset) ∧ deps.Nodup ∧
      (∀ d ∈ deps, d ∉ st.resolved ∧ d ∉ st.resolving ∧
        (storeFind store d).isSome) ∧
      (name ∈ st'.resolved ∨ name ∈ st.resolving ∨
        storeFind store name = none) := by
  intro fuel
  induction fuel with
  | zero => intro name st deps st' h; simp [resolve_skill_dependencies] at h
  | succ fuel ih =>
    intro name st deps st' h
    by_cases h1 : name ∈ st.resolved
    · simp only [resolve_skill_dependencies, if_pos h1, Option.some.injEq,
        Prod.mk.injEq] at h
      rw [← h.1, ← h.2]
      simp [h1]
    · by_cases h2 : name ∈ st.resolving
      · simp only [resolve_skill_dependencies, if_neg h1, if_pos h2,
          Option.some.injEq, Prod.mk.injEq] at h
        rw [← h.1, ← h.2]
        simp [h2]
      · rcases h3 : storeFind store name with _ | content
        · simp only [resolve_skill_dependencies, if_neg h1, if_neg h2, h3,
            Option.some.injEq, Prod.mk.injEq] at h
          rw [← h.1, ← h.2]
          simp [h3]
        · rcases h4 : resolveLoop (resolve_skill_dependencies store fuel)
              (getRequires (parseFMChars content.data).1)
              { st with resolving := insert name st.resolving,
                        reads := st.reads ++ [name] } with _ | ⟨deps0, st2⟩
          · simp only [resolve_skill_dependencies, if_neg h1, if_neg h2, h3,
              h4] at h
            exact Option.noConfusion h
          · simp only [resolve_skill_dependencies, if_neg h1, if_neg h2, h3,
              h4, Option.some.injEq, Prod.mk.injEq] at h
            obtain ⟨hB1, hB2, hB3, _⟩ := resolveLoop_state_spec store
              (resolve_skill_dependencies store fuel)
              (fun n st l st' hh => resolve_resolving_eq store fuel n st l st' hh)
              (fun n st l st' hh => ih n st l st' hh)
              _ _ _ _ h4
            simp only at hB1 hB3
            have hname : ∀ d ∈ deps0, d ≠ name := by
              intro d hd hc
              exact (hB3 d hd).2.1 (by rw [hc]; exact Finset.mem_insert_self _ _)
            rw [← h.1, ← h.2]
            refine ⟨?_, ?_, ?_, ?_⟩
            · simp only [hB1]
              rw [List.toFinset_append]
              ext x
              simp
              tauto
            · refine List.Nodup.append hB2 (List.nodup_singleton name) ?_
              intro a ha1 ha2
              rw [List.mem_singleton] at ha2
              exact hname a ha1 ha2
            · intro d hd
              rcases List.mem_append.mp hd with hd0 | hd1
              · obtain ⟨hr, hv, hdoc⟩ := hB3 d hd0
                exact ⟨hr, fun hc => hv (Finset.mem_insert_of_mem hc), hdoc⟩
              · rw [List.mem_singleton] at hd1
                subst hd1
                exact ⟨h1, h2, by rw [h3]; simp⟩
            · left
              exact Finset.mem_insert_self _ _

/-- The fuel the embedding passes at top level is always sufficient, so the
fuel parameter is invisible: the embedding computes what the unbounded
source recursion computes. -/
theorem resolve_fuel_sufficient (store : Store) (name : String) :
    (resolve_skill_dependencies store (fuelFor store) name initState).isSome := by
  apply resolve_isSome
  have h1 : ((keysF store) \ (∅ : Finset String)).card ≤ store.length := by
    rw [Finset.sdiff_empty]
    calc (keysF store).card ≤ (store.map Prod.fst).length :=
          List.toFinset_card_le _
      _ = store.length := List.length_map _ _
  simpa [initState, fuelFor] using Nat.lt_succ_of_le h1

theorem OrderedOk_mono (store : Store) :
    ∀ (l : List String) (R R' : Finset String), R ⊆ R' →
      OrderedOk store R l → OrderedOk store R' l := by
  intro l
  induction l with
  | nil => intro R R' _ _; trivial
  | cons d ds ih =>
    intro R R' hsub h
    simp only [OrderedOk] at h ⊢
    obtain ⟨hd, hrest⟩ := h
    refine ⟨?_, ih _ _ (Finset.insert_subset_insert d hsub) hrest⟩
    intro b hb
    rcases hd b hb with hc | hc | hc
    · exact Or.inl (hsub hc)
    · exact Or.inr (Or.inl hc)
    · exact Or.inr (Or.inr hc)

theorem OrderedOk_append (store : Store) :
    ∀ (l1 l2 : List String) (R : Finset String),
      OrderedOk store R l1 → OrderedOk store (R ∪ l1.toFinset) l2 →
      OrderedOk store R (l1 ++ l2) := by
  intro l1
  induction l1 with
  | nil =>
    intro l2 R _ h2
    simpa using OrderedOk_mono store l2 _ _ (by simp) h2
  | cons d l1 ih =>
    intro l2 R h1 h2
    simp only [OrderedOk, List.cons_append] at h1 ⊢
    obtain ⟨hd, h1'⟩ := h1
    refine ⟨hd, ?_⟩
    apply ih l2 (insert d R) h1'
    apply OrderedOk_mono store l2 _ _ ?_ h2
    intro x hx
    simp only [Finset.mem_union, List.toFinset_cons, Finset.mem_insert] at hx ⊢
    tauto

/-- Orderedness of the loop results, from orderedness of each call. -/
theorem resolveLoop_ordered (store : Store)
    (f : String → RState → Option (List String × RState))
    (hfp : ∀ n st l st', f n st = some (l, st') → st'.resolving = st.resolving)
    (hfr : ∀ n st l st', f n st = some (l, st') →
      st'.resolved = st.resolved ∪ l.toFinset)
    (hford : ∀ n st l st', f n st = some (l, st') →
      (∀ r ∈ st.resolving, Relation.ReflTransGen (Req store) r n) →
      OrderedOk store st.resolved l) :
    ∀ names st deps st', resolveLoop f names st = some (deps, st') →
      (∀ r ∈ st.resolving, ∀ n ∈ names,
        Relation.ReflTransGen (Req store) r n) →
      OrderedOk store st.resolved deps := by
  intro names
  induction names with
  | nil =>
    intro st deps st' h _
    simp only [resolveLoop, Option.some.injEq, Prod.mk.injEq] at h
    rw [← h.1]
    trivial
  | cons n rest ih =>
    intro st deps st' h hpath
    rcases h1 : f n st with _ | ⟨d1, st1⟩
    · simp only [resolveLoop, h1] at h
      exact Option.noConfusion h
    · rcases h2 : resolveLoop f rest st1 with _ | ⟨d2, st2⟩
      · simp only [resolveLoop, h1, h2] at h
        exact Option.noConfusion h
      · simp only [resolveLoop, h1, h2, Option.some.injEq, Prod.mk.injEq] at h
        rw [← h.1]
        have hres : st1.resolving = st.resolving := hfp n st d1 st1 h1
        have hord1 : OrderedOk store st.resolved d1 :=
          hford n st d1 st1 h1
            (fun r hr => hpath r hr n (List.mem_cons_self n rest))
        have hord2 : OrderedOk store st1.resolved d2 := by
          apply ih st1 d2 st2 h2
          intro r hr m hm
          exact hpath r (by rw [← hres]; exact hr) m (List.mem_cons_of_mem n hm)
        rw [hfr n st d1 st1 h1] at hord2
        exact OrderedOk_append store d1 d2 st.resolved hord1 hord2

/-- One resolver call emits a well-ordered dependency sequence: each emitted
name follows its requirements except for undocumented requirements and for
requirement cycles, provided every name on the active path can reach the
resolved name (trivially true at top level where the path is empty). -/
theorem resolve_ordered (store : Store) :
    ∀ fuel name st deps st',
      resolve_skill_dependencies store fuel name st = some (deps, st') →
      (∀ r ∈ st.resolving, Relation.ReflTransGen (Req store) r name) →
      OrderedOk store st.resolved deps := by
  intro fuel
  induction fuel with
  | zero => intro name st deps st' h _; simp [resolve_skill_dependencies] at h
  | succ fuel ih =>
    intro name st deps st' h hpath
    by_cases h1 : name ∈ st.resolved
    · simp only [resolve_skill_dependencies, if_pos h1, Option.some.injEq,
        Prod.mk.injEq] at h
      rw [← h.1]
      trivial
    · by_cases h2 : name ∈ st.resolving
      · simp only [resolve_skill_dependencies, if_neg h1, if_pos h2,
          Option.some.injEq, Prod.mk.injEq] at h
        rw [← h.1]
        trivial
      · rcases h3 : storeFind store name with _ | content
        · simp only [resolve_skill_dependencies, if_neg h1, if_neg h2, h3,
            Option.some.injEq, Prod.mk.injEq] at h
          rw [← h.1]
          trivial
        · rcases h4 : resolveLoop (resolve_skill_dependencies store fuel)
              (getRequires (parseFMChars content.data).1)
              { st with resolving := insert name st.resolving,
                        reads := st.reads ++ [name] } with _ | ⟨deps0, st2⟩
          · simp only [resolve_skill_dependencies, if_neg h1, if_neg h2, h3,
              h4] at h
            exact Option.noConfusion h
          · simp only [resolve_skill_dependencies, if_neg h1, if_neg h2, h3,
              h4, Option.some.injEq, Prod.mk.injEq] at h
            have hreq : reqList store name =
                getRequires (parseFMChars content.data).1 := by
              unfold reqList
              rw [h3]
            have hpath1 : ∀ r ∈ (insert name st.resolving : Finset String),
                ∀ n ∈ getRequires (parseFMChars content.data).1,
                  Relation.ReflTransGen (Req store) r n := by
              intro r hr n hn
              have hedge : Req store name n := by
                unfold Req
                rw [hreq]
                exact hn
              rcases Finset.mem_insert.mp hr with rfl | hr'
              · exact Relation.ReflTransGen.single hedge
              · exact Relation.ReflTransGen.tail (hpath r hr') hedge
            have hord0 : OrderedOk store st.resolved deps0 := by
              have h' := resolveLoop_ordered store
                (resolve_skill_dependencies store fuel)
                (fun n st l st' hh =>
                  resolve_resolving_eq store fuel n st l st' hh)
                (fun n st l st' hh =>
                  (resolve_state_spec store fuel n st l st' hh).1)
                (fun n st l st' hh hp => ih n st l st' hh hp)
                (getRequires (parseFMChars content.data).1)
                { st with resolving := insert name st.resolving,
                          reads := st.reads ++ [name] }
                deps0 st2 h4
              exact h' hpath1
            obtain ⟨hB1, _, _, hB4⟩ := resolveLoop_state_spec store
              (resolve_skill_dependencies store fuel)
              (fun n st l st' hh =>
                resolve_resolving_eq store fuel n st l st' hh)
              (fun n st l st' hh => resolve_state_spec store fuel n st l st' hh)
              _ _ _ _ h4
            have hcond : ∀ b ∈ reqList store name,
                b ∈ st.resolved ∪ deps0.toFinset ∨ storeFind store b = none ∨
                Relation.TransGen (Req store) b b := by
              intro b hb
              have hb' : b ∈ getRequires (parseFMChars content.data).1 := by
                rw [← hreq]
                exact hb
              rcases hB4 b hb' with hc | hc | hc
              · left
                rw [hB1] at hc
                exact hc
              · have hc' : b ∈ insert name st.resolving := hc
                rcases Finset.mem_insert.mp hc' with rfl | hcc
                · right; right
                  have hedge0 : Req store b b := by
                    unfold Req
                    rw [hreq]
                    exact hb'
                  exact Relation.TransGen.single hedge0
                · right; right
                  have hedge : Req store name b := by
                    unfold Req
                    rw [hreq]
                    exact hb'
                  exact Relation.TransGen.tail' (hpath b hcc) hedge
              · right; left
                exact hc
            rw [← h.1]
            apply OrderedOk_append store deps0 [name] st.resolved hord0
            simp only [OrderedOk]
            exact ⟨hcond, trivial⟩

/-- The merge of lines 181-184 appends exactly the first occurrences of the
names not yet seen, and grows seen by the merged names. -/
theorem mergeSeen_eq :
    ∀ (ds : List String) (seen : Finset String) (order : List String),
      mergeSeen ds seen order =
        (order ++ dedupFirst seen ds, seen ∪ ds.toFinset) := by
  intro ds
  induction ds with
  | nil => intro seen order; simp [mergeSeen, dedupFirst]
  | cons d ds ih =>
    intro seen order
    by_cases hd : d ∈ seen
    · rw [mergeSeen, if_pos hd, ih, dedupFirst, if_pos hd]
      have : seen ∪ (d :: ds).toFinset = seen ∪ ds.toFinset := by
        ext x
        simp only [Finset.mem_union, List.toFinset_cons, Finset.mem_insert]
        constructor
        · rintro (h | rfl | h)
          · exact Or.inl h
          · exact Or.inl hd
          · exact Or.inr h
        · rintro (h | h)
          · exact Or.inl h
          · exact Or.inr (Or.inr h)
      rw [this]
    · rw [mergeSeen, if_neg hd, ih, dedupFirst, if_neg hd]
      have h1 : (order ++ [d]) ++ dedupFirst (insert d seen) ds =
          order ++ d :: dedupFirst (insert d seen) ds := by
        simp
      have h2 : insert d seen ∪ ds.toFinset = seen ∪ (d :: ds).toFinset := by
        ext x
        simp only [Finset.mem_union, Finset.mem_insert, List.toFinset_cons]
        tauto
      rw [h1, h2]

theorem mem_dedupFirst :
    ∀ (l : List String) (seen : Finset String) (x : String),
      x ∈ dedupFirst seen l ↔ x ∈ l ∧ x ∉ seen := by
  intro l
  induction l with
  | nil => intro seen x; simp [dedupFirst]
  | cons d ds ih =>
    intro seen x
    by_cases hd : d ∈ seen
    · rw [dedupFirst, if_pos hd, ih]
      constructor
      · rintro ⟨h1, h2⟩
        exact ⟨List.mem_cons_of_mem d h1, h2⟩
      · rintro ⟨h1, h2⟩
        rcases List.mem_cons.mp h1 with rfl | h1'
        · exact absurd hd h2
        · exact ⟨h1', h2⟩
    · rw [dedupFirst, if_neg hd]
      constructor
      · intro h
        rcases List.mem_cons.mp h with rfl | h'
        · exact ⟨List.mem_cons_self _ _, hd⟩
        · obtain ⟨h1, h2⟩ := (ih (insert d seen) x).mp h'
          simp only [Finset.mem_insert] at h2
          push_neg at h2
          exact ⟨List.mem_cons_of_mem d h1, h2.2⟩
      · rintro ⟨h1, h2⟩
        rcases List.mem_cons.mp h1 with rfl | h1'
        · exact List.mem_cons_self _ _
        · by_cases hx : x = d
          · subst hx
            exact List.mem_cons_self _ _
          · apply List.mem_cons_of_mem
            apply (ih (insert d seen) x).mpr
            refine ⟨h1', ?_⟩
            simp only [Finset.mem_insert]
            push_neg
            exact ⟨hx, h2⟩

theorem dedupFirst_nodup :
    ∀ (l : List String) (seen : Finset String), (dedupFirst seen l).Nodup := by
  intro l
  induction l with
  | nil => intro seen; simp [dedupFirst]
  | cons d ds ih =>
    intro seen
    by_cases hd : d ∈ seen
    · rw [dedupFirst, if_pos hd]
      exact ih seen
    · rw [dedupFirst, if_neg hd]
      refine List.Nodup.cons ?_ (ih (insert d seen))
      intro hc
      have := ((mem_dedupFirst ds (insert d seen) d).mp hc).2
      exact this (Finset.mem_insert_self d seen)

theorem dedupFirst_append :
    ∀ (l1 l2 : List String) (seen : Finset String),
      dedupFirst seen (l1 ++ l2) =
        dedupFirst seen l1 ++ dedupFirst (seen ∪ l1.toFinset) l2 := by
  intro l1
  induction l1 with
  | nil =>
    intro l2 seen
    simp only [List.nil_append, dedupFirst]
    have : seen ∪ ([] : List String).toFinset = seen := by simp
    rw [this]
  | cons d ds ih =>
    intro l2 seen
    have hset : insert d seen ∪ ds.toFinset = seen ∪ (d :: ds).toFinset := by
      ext x
      simp only [Finset.mem_union, Finset.mem_insert, List.toFinset_cons]
      tauto
    by_cases hd : d ∈ seen
    · have hset' : seen ∪ (d :: ds).toFinset = seen ∪ ds.toFinset := by
        ext x
        simp only [Finset.mem_union, List.toFinset_cons, Finset.mem_insert]
        constructor
        · rintro (h | rfl | h)
          · exact Or.inl h
          · exact Or.inl hd
          · exact Or.inr h
        · rintro (h | h)
          · exact Or.inl h
          · exact Or.inr (Or.inr h)
      simp only [List.cons_append, dedupFirst, if_pos hd, List.append_eq]
      rw [ih, hset']
    · simp only [List.cons_append, dedupFirst, if_neg hd, List.append_eq]
      rw [ih, hset]

/-- The global order computed by the assembler is the first-occurrence
deduplication of the concatenated per-call resolution results. -/
theorem assembleOrder_fst (store : Store) :
    ∀ (skills : List String) (seen : Finset String)
      (order cycles reads : List String),
      (assembleOrder store skills seen order cycles reads).1 =
        order ++ dedupFirst seen (resolutionStream store skills) := by
  intro skills
  induction skills with
  | nil =>
    intro seen order cycles reads
    simp [assembleOrder, resolutionStream, dedupFirst]
  | cons s rest ih =>
    intro seen order cycles reads
    have hstream : resolutionStream store (s :: rest) =
        depsOf store s ++ resolutionStream store rest := by
      simp [resolutionStream]
    rcases hr : resolve_skill_dependencies store (fuelFor store) s initState
      with _ | ⟨deps, st⟩
    · have hdeps : depsOf store s = [] := by
        simp [depsOf, hr]
      simp only [assembleOrder, hr]
      rw [ih, hstream, hdeps, List.nil_append]
    · have hdeps : depsOf store s = deps := by
        simp [depsOf, hr]
      simp only [assembleOrder, hr]
      rw [mergeSeen_eq, ih, hstream, hdeps, dedupFirst_append]
      simp

/-- The final order is the first-occurrence deduplication of the
concatenated per-call resolution streams. -/
theorem all_skills_ordered_eq (store : Store) (skills : List String) :
    all_skills_ordered store skills =
      dedupFirst ∅ (resolutionStream store skills) := by
  unfold all_skills_ordered
  rw [assembleOrder_fst]
  simp

theorem GoodL_nil (store : Store) : GoodL store [] := by
  intro pre d suf h
  exact absurd h (by simp)

theorem snoc_split :
    ∀ (L : List String) (d : String) (pre : List String) (x : String)
      (suf : List String), L ++ [d] = pre ++ x :: suf →
      (pre = L ∧ x = d ∧ suf = []) ∨ ∃ suf', L = pre ++ x :: suf' := by
  intro L
  induction L with
  | nil =>
    intro d pre x suf h
    simp only [List.nil_append] at h
    rcases pre with _ | ⟨p, pre'⟩
    · simp only [List.nil_append] at h
      injection h with h1 h2
      exact Or.inl ⟨rfl, h1.symm, h2.symm⟩
    · simp only [List.cons_append] at h
      injection h with h1 h2
      exact absurd h2.symm (by simp)
  | cons a L ih =>
    intro d pre x suf h
    rcases pre with _ | ⟨p, pre'⟩
    · simp only [List.nil_append] at h
      rw [List.cons_append] at h
      injection h with h1 h2
      right
      exact ⟨L, by simp [h1]⟩
    · rw [List.cons_append, List.cons_append] at h
      injection h with h1 h2
      rcases ih d pre' x suf h2 with ⟨hp, hx, hs⟩ | ⟨suf', hsuf⟩
      · left
        exact ⟨by rw [h1, hp], hx, hs⟩
      · right
        refine ⟨suf', ?_⟩
        rw [List.cons_append, h1, hsuf]

theorem GoodL_snoc (store : Store) (L : List String) (d : String)
    (hL : GoodL store L)
    (hd : ∀ b ∈ reqList store d, b ∈ L ∨ storeFind store b = none ∨
      Relation.TransGen (Req store) b b) :
    GoodL store (L ++ [d]) := by
  intro pre x suf h b hb
  rcases snoc_split L d pre x suf h with ⟨hp, hx, _⟩ | ⟨suf', hsuf⟩
  · subst hp
    subst hx
    rcases hd b hb with hc | hc | hc
    · exact Or.inl hc
    · exact Or.inr (Or.inl hc)
    · exact Or.inr (Or.inr hc)
  · exact hL pre x suf' hsuf b hb

/-- Merging a well-ordered dependency sequence into a good order keeps it
good: every newly appended name has all its requirements among the names
already placed. -/
theorem dedup_merge_good (store : Store) :
    ∀ (deps order : List String) (seen : Finset String),
      seen = order.toFinset → GoodL store order →
      OrderedOk store seen deps →
      GoodL store (order ++ dedupFirst seen deps) := by
  intro deps
  induction deps with
  | nil =>
    intro order seen _ hgood _
    simpa [dedupFirst] using hgood
  | cons d ds ih =>
    intro order seen hseen hgood hord
    simp only [OrderedOk] at hord
    obtain ⟨hd, hds⟩ := hord
    by_cases hmem : d ∈ seen
    · rw [dedupFirst, if_pos hmem]
      have hins : insert d seen = seen := Finset.insert_eq_self.mpr hmem
      rw [hins] at hds
      exact ih order seen hseen hgood hds
    · rw [dedupFirst, if_neg hmem]
      have hgood' : GoodL store (order ++ [d]) := by
        apply GoodL_snoc store order d hgood
        intro b hb
        rcases hd b hb with hc | hc | hc
        · left
          rw [hseen] at hc
          exact List.mem_toFinset.mp hc
        · exact Or.inr (Or.inl hc)
        · exact Or.inr (Or.inr hc)
      have hseen' : insert d seen = (order ++ [d]).toFinset := by
        rw [hseen]
        ext x
        simp only [Finset.mem_insert, List.mem_toFinset, List.toFinset_append,
          Finset.mem_union, List.toFinset_cons, List.toFinset_nil,
          Finset.mem_singleton, Finset.not_mem_empty, insert_emptyc_eq]
        tauto
      have := ih (order ++ [d]) (insert d seen) hseen' hgood' hds
      simpa using this

/-- The assembler keeps the order good, duplicate-free and documented. -/
theorem assembleOrder_invariants (store : Store) :
    ∀ (skills : List String) (seen : Finset String)
      (order cycles reads : List String),
      seen = order.toFinset → GoodL store order → order.Nodup →
      (∀ x ∈ order, (storeFind store x).isSome) →
      GoodL store (assembleOrder store skills seen order cycles reads).1 ∧
      (assembleOrder store skills seen order cycles reads).1.Nodup ∧
      (∀ x ∈ (assembleOrder store skills seen order cycles reads).1,
        (storeFind store x).isSome) := by
  intro skills
  induction skills with
  | nil =>
    intro seen order cycles reads _ hgood hnd hdoc
    simp only [assembleOrder]
    exact ⟨hgood, hnd, hdoc⟩
  | cons s rest ih =>
    intro seen order cycles reads hseen hgood hnd hdoc
    rcases hr : resolve_skill_dependencies store (fuelFor store) s initState
      with _ | ⟨deps, st⟩
    · simp only [assembleOrder, hr]
      exact ih seen order cycles reads hseen hgood hnd hdoc
    · simp only [assembleOrder, hr, mergeSeen_eq]
      have hord : OrderedOk store seen deps := by
        apply OrderedOk_mono store deps ∅ seen (Finset.empty_subset seen)
        exact resolve_ordered store (fuelFor store) s initState deps st hr
          (fun r hr' => absurd hr' (Finset.not_mem_empty r))
      have hdeps_doc : ∀ d ∈ deps, (storeFind store d).isSome :=
        fun d hd => (((resolve_state_spec store (fuelFor store) s initState
          deps st hr).2.2.1) d hd).2.2
      have hseen' : seen ∪ deps.toFinset =
          (order ++ dedupFirst seen deps).toFinset := by
        subst hseen
        ext x
        simp only [Finset.mem_union, List.mem_toFinset, List.toFinset_append,
          mem_dedupFirst]
        constructor
        · rintro (hx | hx)
          · exact Or.inl hx
          · by_cases hxo : x ∈ order
            · exact Or.inl hxo
            · exact Or.inr ⟨hx, hxo⟩
        · rintro (hx | ⟨hx, _⟩)
          · exact Or.inl hx
          · exact Or.inr hx
      have hgood' : GoodL store (order ++ dedupFirst seen deps) :=
        dedup_merge_good store deps order seen hseen hgood hord
      have hnd' : (order ++ dedupFirst seen deps).Nodup := by
        refine List.Nodup.append hnd (dedupFirst_nodup deps seen) ?_
        intro a ha1 ha2
        have := ((mem_dedupFirst deps seen a).mp ha2).2
        rw [hseen] at this
        exact this (List.mem_toFinset.mpr ha1)
      have hdoc' : ∀ x ∈ order ++ dedupFirst seen deps,
          (storeFind store x).isSome := by
        intro x hx
        rcases List.mem_append.mp hx with hx | hx
        · exact hdoc x hx
        · exact hdeps_doc x ((mem_dedupFirst deps seen x).mp hx).1
      exact ih _ _ _ _ hseen' hgood' hnd' hdoc'

/-- The final order is good, duplicate-free, and only contains documented
skills. -/
theorem all_skills_ordered_invariants (store : Store) (skills : List String) :
    GoodL store (all_skills_ordered store skills) ∧
    (all_skills_ordered store skills).Nodup ∧
    (∀ x ∈ all_skills_ordered store skills, (storeFind store x).isSome) := by
  unfold all_skills_ordered
  exact assembleOrder_invariants store skills ∅ [] [] [] (by simp)
    (GoodL_nil store) (by simp) (by simp)

theorem idxOf_lt_of_mem_pre :
    ∀ (pre suf : List String) (d b : String),
      (pre ++ d :: suf).Nodup → b ∈ pre →
      idxOf b (pre ++ d :: suf) < idxOf d (pre ++ d :: suf) := by
  intro pre
  induction pre with
  | nil => intro suf d b _ hb; simp at hb
  | cons p pre ih =>
    intro suf d b hnd hb
    have hnd1 : p ∉ pre ++ d :: suf := (List.nodup_cons.mp hnd).1
    have hnd2 : (pre ++ d :: suf).Nodup := (List.nodup_cons.mp hnd).2
    have hpd : p ≠ d := by
      intro hc
      apply hnd1
      rw [hc]
      exact List.mem_append.mpr (Or.inr (List.mem_cons_self d suf))
    by_cases hbp : p = b
    · rw [List.cons_append, idxOf, if_pos hbp, idxOf, if_neg hpd]
      omega
    · rw [List.cons_append, idxOf, if_neg hbp, idxOf, if_neg hpd]
      have := ih suf d b hnd2 (by
        rcases List.mem_cons.mp hb with rfl | hb'
        · exact absurd rfl hbp
        · exact hb')
      omega

theorem req_rank (store : Store) (rank : String → Nat)
    (hrank : ∀ a ∈ store.map Prod.fst, ∀ b ∈ reqList store a,
      rank b < rank a) :
    ∀ a b, Req store a b → rank b < rank a := by
  intro a b h
  have hdoc : (storeFind store a).isSome := reqList_isSome h
  exact hrank a (storeFind_isSome_mem hdoc) b h

theorem transGen_rank (store : Store) (rank : String → Nat)
    (hrank : ∀ a ∈ store.map Prod.fst, ∀ b ∈ reqList store a,
      rank b < rank a) :
    ∀ a b, Relation.TransGen (Req store) a b → rank b < rank a := by
  intro a b h
  induction h with
  | single h1 => exact req_rank store rank hrank _ _ h1
  | tail _ h2 ih => exact lt_trans (req_rank store rank hrank _ _ h2) ih

/-- A rank function decreasing along requirement edges rules out
requirement cycles. -/
theorem no_cycle_of_rank (store : Store) (rank : String → Nat)
    (hrank : ∀ a ∈ store.map Prod.fst, ∀ b ∈ reqList store a,
      rank b < rank a) :
    ∀ x, ¬ Relation.TransGen (Req store) x x := by
  intro x h
  exact lt_irrefl _ (transGen_rank store rank hrank x x h)

/-- One topological step inside a good, duplicate-free, cycle-free order:
a documented direct requirement of a member is itself a member and sits
strictly earlier. -/
theorem topo_step (store : Store) (L : List String)
    (hgood : GoodL store L) (hnd : L.Nodup)
    (hnocyc : ∀ x, ¬ Relation.TransGen (Req store) x x) :
    ∀ A ∈ L, ∀ b, Req store A b → (storeFind store b).isSome →
      b ∈ L ∧ idxOf b L < idxOf A L := by
  intro A hA b hreq hdoc
  obtain ⟨pre, suf, hsplit⟩ := List.append_of_mem hA
  rcases hgood pre A suf hsplit b hreq with hc | hc | hc
  · constructor
    · rw [hsplit]
      exact List.mem_append.mpr (Or.inl hc)
    · rw [hsplit]
      exact idxOf_lt_of_mem_pre pre suf A b (hsplit ▸ hnd) hc
  · rw [hc] at hdoc
    simp at hdoc
  · exact absurd hc (hnocyc b)

/-- C3: topological validity of the final global load order.  Skills are
names with a document; the requirement DAG hypothesis is given by a rank
function strictly decreasing along requirement edges (exactly acyclicity of
the finite requirement graph).  Whenever a member A of the final order
transitively requires a documented skill B, B is also in the order and
appears strictly before A, and the order lists every skill at most once. -/
theorem C3_topological_validity (store : Store) (skills : List String)
    (rank : String → Nat)
    (hrank : ∀ a ∈ store.map Prod.fst, ∀ b ∈ reqList store a,
      rank b < rank a) :
    (all_skills_ordered store skills).Nodup ∧
    ∀ A ∈ all_skills_ordered store skills, ∀ B,
      Relation.TransGen (Req store) A B → (storeFind store B).isSome →
      B ∈ all_skills_ordered store skills ∧
      idxOf B (all_skills_ordered store skills) <
        idxOf A (all_skills_ordered store skills) := by
  obtain ⟨hgood, hnd, _⟩ := all_skills_ordered_invariants store skills
  have hnocyc := no_cycle_of_rank store rank hrank
  refine ⟨hnd, ?_⟩
  intro A hA B htg
  induction htg with
  | single h1 =>
    intro hBdoc
    exact topo_step store _ hgood hnd hnocyc A hA _ h1 hBdoc
  | tail _ h2 ih =>
    intro hBdoc
    have hmdoc := reqList_isSome h2
    obtain ⟨hmL, hmlt⟩ := ih hmdoc
    obtain ⟨hBL, hBlt⟩ := topo_step store _ hgood hnd hnocyc _ hmL _ h2 hBdoc
    exact ⟨hBL, lt_trans hBlt hmlt⟩

/-- Witness for C3 on a concrete store where a requires b. -/
theorem C3_topological_validity_witness :
    idxOf "b" (all_skills_ordered StoreTopo ["a"]) <
      idxOf "a" (all_skills_ordered StoreTopo ["a"]) := by
  have h := C3_topological_validity StoreTopo ["a"]
    (fun s => if s = "a" then 1 else 0) (by decide)
  exact (h.2 "a" (by decide) "b"
    (Relation.TransGen.single (show Req StoreTopo "a" "b" by
      unfold Req
      decide)) (by decide)).2

theorem dedupFirst_idxOf :
    ∀ (l : List String) (seen : Finset String) (x y : String),
      x ∈ dedupFirst seen l → y ∈ dedupFirst seen l →
      (idxOf x (dedupFirst seen l) ≤ idxOf y (dedupFirst seen l) ↔
        idxOf x l ≤ idxOf y l) := by
  intro l
  induction l with
  | nil => intro seen x y hx _; simp [dedupFirst] at hx
  | cons d ds ih =>
    intro seen x y hx hy
    by_cases hd : d ∈ seen
    · rw [dedupFirst, if_pos hd] at hx hy ⊢
      have hxd : d ≠ x := fun hc =>
        ((mem_dedupFirst ds seen x).mp hx).2 (hc ▸ hd)
      have hyd : d ≠ y := fun hc =>
        ((mem_dedupFirst ds seen y).mp hy).2 (hc ▸ hd)
      rw [idxOf, if_neg hxd, idxOf, if_neg hyd]
      rw [ih seen x y hx hy]
      omega
    · rw [dedupFirst, if_neg hd] at hx hy ⊢
      by_cases hxd : d = x
      · subst hxd
        simp [idxOf]
      · have hx' : x ∈ dedupFirst (insert d seen) ds := by
          rcases List.mem_cons.mp hx with rfl | hx'
          · exact absurd rfl hxd
          · exact hx'
        by_cases hyd : d = y
        · have hxpos : x ∉ insert d seen :=
            ((mem_dedupFirst ds (insert d seen) x).mp hx').2
          rw [idxOf, if_neg hxd, idxOf, if_pos hyd, idxOf, if_neg hxd,
            idxOf, if_pos hyd]
          omega
        · have hy' : y ∈ dedupFirst (insert d seen) ds := by
            rcases List.mem_cons.mp hy with rfl | hy'
            · exact absurd rfl hyd
            · exact hy'
          rw [idxOf, if_neg hxd, idxOf, if_neg hyd, idxOf, if_neg hxd,
            idxOf, if_neg hyd]
          rw [show ∀ m n : Nat, (m + 1 ≤ n + 1 ↔ m ≤ n) from fun m n => by
            omega]
          rw [show ∀ m n : Nat, (m + 1 ≤ n + 1 ↔ m ≤ n) from fun m n => by
            omega]
          exact ih (insert d seen) x y hx' hy'

theorem mem_resolutionStream_order (store : Store) (skills : List String) :
    ∀ x ∈ resolutionStream store skills,
      x ∈ all_skills_ordered store skills := by
  intro x hx
  rw [all_skills_ordered_eq]
  exact (mem_dedupFirst _ _ x).mpr ⟨hx, Finset.not_mem_empty x⟩

/-- C5: idempotence of resolution.  The final global order is exactly the
first-occurrence deduplication of the concatenated per-invocation
resolution streams: every resolved name appears exactly once (the order is
duplicate-free), every name occurring anywhere in the resolution stream is
in the order, and the relative positions in the order agree with the
relative positions of first resolutions in the stream (first occurrence
wins). -/
theorem C5_idempotence_of_resolution (store : Store) (skills : List String) :
    all_skills_ordered store skills =
      dedupFirst ∅ (resolutionStream store skills) ∧
    (all_skills_ordered store skills).Nodup ∧
    (∀ x ∈ resolutionStream store skills,
      x ∈ all_skills_ordered store skills) ∧
    (∀ x y, x ∈ resolutionStream store skills →
      y ∈ resolutionStream store skills →
      (idxOf x (all_skills_ordered store skills) ≤
          idxOf y (all_skills_ordered store skills) ↔
        idxOf x (resolutionStream store skills) ≤
          idxOf y (resolutionStream store skills))) := by
  refine ⟨all_skills_ordered_eq store skills,
    (all_skills_ordered_invariants store skills).2.1,
    mem_resolutionStream_order store skills, ?_⟩
  intro x y hx hy
  rw [all_skills_ordered_eq]
  exact dedupFirst_idxOf (resolutionStream store skills) ∅ x y
    ((mem_dedupFirst _ _ x).mpr ⟨hx, Finset.not_mem_empty x⟩)
    ((mem_dedupFirst _ _ y).mpr ⟨hy, Finset.not_mem_empty y⟩)

/-- Witness for C5 on a concrete store where c is resolved twice. -/
theorem C5_idempotence_of_resolution_witness :
    idxOf "c" (all_skills_ordered StoreShared ["a", "b"]) ≤
      idxOf "b" (all_skills_ordered StoreShared ["a", "b"]) :=
  ((C5_idempotence_of_resolution StoreShared ["a", "b"]).2.2.2 "c" "b"
    (by decide) (by decide)).mpr (by decide)

/-- C2 counterexample: the claim says a skill required by two different
requested skills is resolved and its document loaded only once.  On the
concrete store where a and b both require c, one run reads the document of
c twice (once per top-level expansion), and the second top-level
invocation resolves c again: the resolver invocations do not share their
resolved/resolving sets (the Python defaults allocate fresh sets for each
top-level call). -/
theorem C2_counterexample :
    ((assembleOrder StoreShared ["a", "b"] ∅ [] [] []).2.2).count "c" = 2 ∧
    depsOf StoreShared "b" = ["c", "b"] := by decide

/-- C2 amended: each top-level resolver invocation starts from fresh empty
resolved/resolving sets, so a shared prerequisite is re-resolved and its
document re-read on later expansions; deduplication happens only in the
merge, whose seen set guarantees that the final order lists each skill
exactly once, at its first-encountered position. -/
theorem C2_fresh_sets_merge_dedup (store : Store) (skills : List String) :
    (all_skills_ordered store skills =
      dedupFirst ∅ ((skills.map (depsOf store)).flatten)) ∧
    (all_skills_ordered store skills).Nodup ∧
    (((assembleOrder StoreShared ["a", "b"] ∅ [] [] []).2.2).count "c" = 2 ∧
      all_skills_ordered StoreShared ["a", "b"] = ["c", "a", "b"]) := by
  refine ⟨all_skills_ordered_eq store skills,
    (all_skills_ordered_invariants store skills).2.1, by decide, by decide⟩

/-- C4: cycle safety and termination.  For every finite store (cyclic or
not) the resolver returns (enough fuel is store.length + 1: no infinite
recursion) and the final order is duplicate-free; on the concrete cyclic
store (a requires b, b requires a, c unrelated) the run emits the
circular-dependency diagnostic for the cycle, prunes that branch, still
resolves the sibling branch c, and produces the order b, a, c with neither
cycle participant duplicated. -/
theorem C4_cycle_safety :
    (∀ (store : Store) (name : String),
      (resolve_skill_dependencies store (fuelFor store) name
        initState).isSome) ∧
    (∀ (store : Store) (skills : List String),
      (all_skills_ordered store skills).Nodup) ∧
    assembleOrder StoreCycle ["a", "c"] ∅ [] [] [] =
      (["b", "a", "c"], ["a"], ["a", "b", "c"]) := by
  refine ⟨resolve_fuel_sufficient, ?_, by decide⟩
  intro store skills
  exact (all_skills_ordered_invariants store skills).2.1

theorem loadEach_missing_nil (store : Store) (jm : Bool) :
    ∀ names, (∀ n ∈ names, (storeFind store n).isSome) →
      (loadEach store jm names).2.1 = [] := by
  intro names
  induction names with
  | nil => intro _; simp [loadEach]
  | cons n rest ih =>
    intro h
    have hn := h n (List.mem_cons_self n rest)
    rcases hfind : storeFind store n with _ | raw
    · rw [hfind] at hn
      simp at hn
    · simp only [loadEach, hfind]
      exact ih (fun m hm => h m (List.mem_cons_of_mem n hm))

/-- C1: the claim says a requested skill with no document appears in the
missing list.  In fact the resolver drops undocumented names before they
reach the global order (lines 121-123 return without appending), so every
name the assembler attempts to load is documented and the missing list is
always empty; the assembler never re-attempts the dropped names.  On the
failing input (empty store, configuration requesting x) the structured
report shows missingSkills empty, not containing x. -/
theorem C1_missing_never_reported :
    (∀ (store : Store) (skills : List String) (jm : Bool),
      (loadEach store jm (all_skills_ordered store skills)).2.1 = []) ∧
    load_skills_for_project [] ⟨JsonConfigFile.wellFormed ["x"], none⟩
        true false =
      Except.ok (Output.jsonReport ⟨⟨["x"], ConfigFormat.json⟩, [], [], []⟩,
        []) := by
  constructor
  · intro store skills jm
    exact loadEach_missing_nil store jm _
      (all_skills_ordered_invariants store skills).2.2
  · decide

/-- C8: propagation policy.  The run aborts (sys.exit(1), modelled as
Except.error, with no output produced) exactly when the structured
configuration file is present but fails to parse; every other condition --
configuration absent, empty skill list, circular dependencies, undocumented
skills -- produces a normal result, reported through the diagnostics and
the missing/empty result fields. -/
theorem C8_propagation_policy (store : Store) (pf : ProjectFiles)
    (jsonMode silent : Bool) :
    load_skills_for_project store pf jsonMode silent = Except.error () ↔
      pf.jsonFile = JsonConfigFile.malformed := by
  rcases pf with ⟨jf, tf⟩
  rcases jf with _ | _ | skills
  · rcases tf with _ | lines
    · simp [load_skills_for_project, load_skills_config]
    · simp only [load_skills_for_project, load_skills_config]
      split <;> simp
  · simp [load_skills_for_project, load_skills_config]
  · simp only [load_skills_for_project, load_skills_config]
    split <;> simp

/-- Witness for C8: a malformed structured configuration aborts. -/
theorem C8_propagation_policy_witness :
    load_skills_for_project [] ⟨JsonConfigFile.malformed, none⟩ false false =
      Except.error () :=
  (C8_propagation_policy [] ⟨JsonConfigFile.malformed, none⟩ false false).mpr
    rfl

/-- C9 counterexample: in plain-text mode the primary result (the return
value, the primary output contract) of a run with no configuration at all
equals the primary result of a run whose configuration names no skills --
both are the empty text. -/
theorem C9_counterexample :
    (load_skills_for_project [] ⟨JsonConfigFile.absent, none⟩
        false false).map Prod.fst =
      (load_skills_for_project [] ⟨JsonConfigFile.wellFormed [], none⟩
        false false).map Prod.fst := by decide

/-- C9 amended: both conditions are non-fatal.  In structured-report mode
they yield distinct explicit error results (distinct error payloads); in
plain-text mode both yield the empty text, and they are distinguished only
by the suppressible stderr diagnostics. -/
theorem C9_absent_vs_empty (store : Store) (silent : Bool) :
    (load_skills_for_project store ⟨JsonConfigFile.absent, none⟩ true
        silent =
      Except.ok (Output.jsonError "No skills configuration found",
        if silent then [] else [Diag.noConfigFound])) ∧
    (load_skills_for_project store ⟨JsonConfigFile.wellFormed [], none⟩ true
        silent =
      Except.ok (Output.jsonError "No active skills",
        if silent then [] else [Diag.noActiveSkills])) ∧
    Output.jsonError "No skills configuration found" ≠
      Output.jsonError "No active skills" ∧
    (load_skills_for_project store ⟨JsonConfigFile.absent, none⟩ false
        false =
      Except.ok (Output.text "", [Diag.noConfigFound])) ∧
    (load_skills_for_project store ⟨JsonConfigFile.wellFormed [], none⟩
        false false =
      Except.ok (Output.text "", [Diag.noActiveSkills])) ∧
    Diag.noConfigFound ≠ Diag.noActiveSkills := by
  refine ⟨?_, ?_, by decide, ?_, ?_, by decide⟩
  all_goals simp [load_skills_for_project, load_skills_config]

/-- C7: list-value parsing.  The exemplar frontmatter line (requires
followed by a bracketed a, double-quoted b, single-quoted c) parses to the
requires key bound to the ordered three-element list a, b, c, with
whitespace and quotes stripped from each element. -/
theorem C7_list_value_parsing :
    (parse_skill_frontmatter ("---\nrequires: [a, \"b\", " ++
        ⟨[Char.ofNat 39, 'c', Char.ofNat 39]⟩ ++ "]\n---\nX")).1 =
      some [("requires", FMValue.list ["a", "b", "c"])] ∧
    (parse_skill_frontmatter ("---\nrequires: [a, \"b\", " ++
        ⟨[Char.ofNat 39, 'c', Char.ofNat 39]⟩ ++ "]\n---\nX")).2 = "X" := by
  decide

/-- C10: a frontmatter line with an empty bracket pair parses to the
one-element list containing the empty string, not the empty list; the
resolver therefore treats the skill as requiring the empty-string name
and silently drops it, since no document of that name exists. -/
theorem C10_empty_bracket_list :
    (parse_skill_frontmatter "---\nrequires: []\n---\nX").1 =
      some [("requires", FMValue.list [""])] ∧
    reqList StoreEmptyReq "s" = [""] ∧
    storeFind StoreEmptyReq "" = none ∧
    depsOf StoreEmptyReq "s" = ["s"] ∧
    (assembleOrder StoreEmptyReq ["s"] ∅ [] [] []).2.2 = ["s"] := by decide

theorem take4_delim_agree (body : List Char) :
    ∀ k ≤ 4, (['\n', '-', '-', '-', '\n'] ++ body).take k =
      (['\n', '-', '-', '-'] : List Char).take k := by
  intro k hk
  interval_cases k <;> simp

theorem take_eq_of_prefix_agree (l l1 l2 : List Char) (n : Nat)
    (h : ∀ k ≤ n, l1.take k = l2.take k) :
    (l ++ l1).take n = (l ++ l2).take n := by
  rw [List.take_append_eq_append_take, List.take_append_eq_append_take]
  congr 1
  exact h (n - l.length) (by omega)

/-- When the header text contains no (possibly overlapping) occurrence of
the closing delimiter, the first occurrence found by the non-greedy search
is exactly the one separating the header from the body. -/
theorem findDelim_exact :
    ∀ (fmTxt body : List Char),
      containsDelim (fmTxt ++ ['\n', '-', '-', '-']) = false →
      findDelim (fmTxt ++ ['\n', '-', '-', '-', '\n'] ++ body) =
        some (fmTxt, body) := by
  intro fmTxt
  induction fmTxt with
  | nil =>
    intro body _
    simp [findDelim]
  | cons c fm ih =>
    intro body hclean
    have hparts : (decide (c = '\n') &&
        ((fm ++ ['\n', '-', '-', '-']).take 4 ==
          ['-', '-', '-', '\n'])) = false ∧
        containsDelim (fm ++ ['\n', '-', '-', '-']) = false := by
      rw [List.cons_append, containsDelim, Bool.or_eq_false_iff] at hclean
      exact hclean
    have hcond : ¬ (c = '\n' ∧
        (fm ++ ['\n', '-', '-', '-', '\n'] ++ body).take 4 =
          ['-', '-', '-', '\n']) := by
      rintro ⟨rfl, htake⟩
      rw [List.append_assoc] at htake
      have hagree : (fm ++ (['\n', '-', '-', '-', '\n'] ++ body)).take 4 =
          (fm ++ ['\n', '-', '-', '-']).take 4 :=
        take_eq_of_prefix_agree fm _ _ 4 (take4_delim_agree body)
      have htake' : (fm ++ ['\n', '-', '-', '-']).take 4 =
          ['-', '-', '-', '\n'] := by
        rw [← hagree]
        exact htake
      rw [htake'] at hparts
      simp at hparts
    have hlist : (c :: fm) ++ ['\n', '-', '-', '-', '\n'] ++ body =
        c :: (fm ++ ['\n', '-', '-', '-', '\n'] ++ body) := by
      simp
    rw [hlist, findDelim, if_neg hcond, ih body hparts.2]

/-- Dict lookup after the in-place overwrite of fmSet. -/
theorem fmLookup_map_update :
    ∀ (m : List (String × FMValue)) (k2 : String) (v2 : FMValue)
      (k : String), k2 ≠ k →
      fmLookup (m.map (fun p => if p.1 = k2 then (k2, v2) else p)) k =
        fmLookup m k := by
  intro m
  induction m with
  | nil => intro k2 v2 k _; simp
  | cons p rest ih =>
    intro k2 v2 k hne
    rcases p with ⟨k', v'⟩
    by_cases h : k' = k2
    · subst h
      have hproj : (if ((k', v') : String × FMValue).1 = k' then (k', v2)
          else (k', v')) = (k', v2) := by simp
      rw [List.map_cons, hproj, fmLookup, fmLookup, if_neg hne, if_neg hne]
      exact ih k' v2 k hne
    · have hproj : (if ((k', v') : String × FMValue).1 = k2 then (k2, v2)
          else (k', v')) = (k', v') := by simp [h]
      rw [List.map_cons, hproj, fmLookup, fmLookup]
      by_cases hk : k' = k
      · rw [if_pos hk, if_pos hk]
      · rw [if_neg hk, if_neg hk]
        exact ih k2 v2 k hne

theorem fmLookup_append_some :
    ∀ (m m2 : List (String × FMValue)) (k : String) (v : FMValue),
      fmLookup m k = some v → fmLookup (m ++ m2) k = some v := by
  intro m
  induction m with
  | nil => intro m2 k v h; simp [fmLookup] at h
  | cons p rest ih =>
    intro m2 k v h
    rcases p with ⟨k', v'⟩
    rw [List.cons_append, fmLookup]
    rw [fmLookup] at h
    by_cases hk : k' = k
    · rw [if_pos hk] at h ⊢
      exact h
    · rw [if_neg hk] at h ⊢
      exact ih m2 k v h

/-- fmSet makes its key present. -/
theorem fmLookup_fmSet_self :
    ∀ (m : List (String × FMValue)) (k : String) (v : FMValue),
      fmLookup (fmSet m k v) k = some v := by
  intro m
  induction m with
  | nil => intro k v; simp [fmSet, fmLookup]
  | cons p rest ih =>
    intro k v
    rcases p with ⟨k', v'⟩
    by_cases hk : k' = k
    · subst hk
      have hcond : (fmLookup ((k', v') :: rest) k').isSome := by
        rw [fmLookup, if_pos rfl]
        simp
      have hproj : (if ((k', v') : String × FMValue).1 = k' then (k', v)
          else (k', v')) = (k', v) := by simp
      rw [fmSet, if_pos hcond, List.map_cons, hproj, fmLookup, if_pos rfl]
    · by_cases hsome : (fmLookup rest k).isSome
      · have hcond : (fmLookup ((k', v') :: rest) k).isSome := by
          rw [fmLookup, if_neg hk]
          exact hsome
        have hproj : (if ((k', v') : String × FMValue).1 = k then (k, v)
            else (k', v')) = (k', v') := by simp [hk]
        rw [fmSet, if_pos hcond, List.map_cons, hproj, fmLookup, if_neg hk]
        have hrw : rest.map (fun p => if p.1 = k then (k, v) else p) =
            fmSet rest k v := by
          rw [fmSet, if_pos hsome]
        rw [hrw, ih]
      · have hcond : ¬ (fmLookup ((k', v') :: rest) k).isSome = true := by
          rw [fmLookup, if_neg hk]
          exact hsome
        rw [fmSet, if_neg hcond, List.cons_append, fmLookup, if_neg hk]
        have hrw : rest ++ [(k, v)] = fmSet rest k v := by
          rw [fmSet, if_neg hsome]
        rw [hrw, ih]

theorem fmSet_preserves_isSome :
    ∀ (m : List (String × FMValue)) (k2 : String) (v2 : FMValue)
      (k : String), (fmLookup m k).isSome →
      (fmLookup (fmSet m k2 v2) k).isSome := by
  intro m k2 v2 k h
  by_cases hk : k2 = k
  · subst hk
    rw [fmLookup_fmSet_self]
    simp
  · rw [fmSet]
    by_cases hc : (fmLookup m k2).isSome
    · rw [if_pos hc, fmLookup_map_update m k2 v2 k hk]
      exact h
    · rw [if_neg hc]
      obtain ⟨v, hv⟩ := Option.isSome_iff_exists.mp h
      rw [fmLookup_append_some m [(k2, v2)] k v hv]
      simp

theorem foldl_fmStep_entry (k : String) :
    ∀ (lines : List (List Char)) (m : List (String × FMValue)),
      ((fmLookup m k).isSome ∨
        ∃ line ∈ lines, ∃ v, parseLine line = some (k, v)) →
      (fmLookup (lines.foldl
        (fun m line =>
          match parseLine line with
          | none => m
          | some (k, v) => fmSet m k v) m) k).isSome := by
  intro lines
  induction lines with
  | nil =>
    intro m h
    rcases h with h | ⟨line, hline, _⟩
    · simpa using h
    · simp at hline
  | cons l ls ih =>
    intro m h
    rw [List.foldl_cons]
    apply ih
    rcases h with h | ⟨line, hline, v, hv⟩
    · left
      rcases hp : parseLine l with _ | ⟨k2, v2⟩
      · simpa [hp] using h
      · simp only [hp]
        exact fmSet_preserves_isSome m k2 v2 k h
    · rcases List.mem_cons.mp hline with rfl | hline'
      · left
        simp only [hv]
        rw [fmLookup_fmSet_self]
        simp
      · right
        exact ⟨line, hline', v, hv⟩

/-- Every well-formed key gets an entry in the parsed metadata. -/
theorem parseFMtext_entry :
    ∀ (txt line : List Char) (k : String) (v : FMValue),
      line ∈ splitOnChar '\n' txt → parseLine line = some (k, v) →
      (fmLookup (parseFMtext txt) k).isSome := by
  intro txt line k v hline hparse
  unfold parseFMtext
  exact foldl_fmStep_entry k (splitOnChar '\n' txt) []
    (Or.inr ⟨line, hline, v, hparse⟩)

/-- C6: frontmatter round trip.  For every document made of a
well-delimited metadata header followed by body text (well-delimited: the
header text contains no occurrence of the closing delimiter, not even one
overlapping its own final newline), parsing removes the header block with
both delimiter lines fully and exactly -- the returned body is the original
body text -- and the returned metadata mapping contains an entry for every
well-formed key colon value line; every document without such a header
yields no metadata and the original text unchanged. -/
theorem C6_frontmatter_roundtrip (fmTxt body : List Char)
    (hclean : containsDelim (fmTxt ++ ['\n', '-', '-', '-']) = false) :
    (∃ m, parseFMChars (['-', '-', '-', '\n'] ++ fmTxt ++
        ['\n', '-', '-', '-', '\n'] ++ body) = (some m, body) ∧
      ∀ line ∈ splitOnChar '\n' fmTxt, ∀ k v,
        parseLine line = some (k, v) → (fmLookup m k).isSome) ∧
    (∀ content : List Char, hasHeader content = false →
      parseFMChars content = (none, content)) := by
  constructor
  · refine ⟨parseFMtext fmTxt, ?_, ?_⟩
    · have hshape : ['-', '-', '-', '\n'] ++ fmTxt ++
          ['\n', '-', '-', '-', '\n'] ++ body =
          '-' :: '-' :: '-' :: '\n' ::
            (fmTxt ++ ['\n', '-', '-', '-', '\n'] ++ body) := by
        simp
      have htake : ('-' :: '-' :: '-' :: '\n' ::
          (fmTxt ++ ['\n', '-', '-', '-', '\n'] ++ body)).take 4 =
          ['-', '-', '-', '\n'] := by
        simp
      have hdrop : ('-' :: '-' :: '-' :: '\n' ::
          (fmTxt ++ ['\n', '-', '-', '-', '\n'] ++ body)).drop 4 =
          fmTxt ++ ['\n', '-', '-', '-', '\n'] ++ body := by
        simp
      rw [hshape]
      simp only [parseFMChars]
      rw [if_pos htake, hdrop, findDelim_exact fmTxt body hclean]
    · intro line hline k v hp
      exact parseFMtext_entry fmTxt line k v hline hp
  · intro content hh
    unfold hasHeader at hh
    by_cases hc : content.take 4 = ['-', '-', '-', '\n']
    · rw [hc] at hh
      simp only [beq_self_eq_true, Bool.true_and] at hh
      rcases hfd : findDelim (content.drop 4) with _ | pr
      · simp only [parseFMChars, if_pos hc, hfd]
      · rw [hfd] at hh
        simp at hh
    · simp only [parseFMChars, if_neg hc]

/-- Witness for C6 on a concrete two-line header with an ignored line. -/
theorem C6_frontmatter_roundtrip_witness :
    containsDelim ("k1: v1\njunk junk\nk2: v2".data ++
        ['\n', '-', '-', '-']) = false ∧
    ((∃ m, parseFMChars (['-', '-', '-', '\n'] ++
          "k1: v1\njunk junk\nk2: v2".data ++
          ['\n', '-', '-', '-', '\n'] ++ "Body".data) =
            (some m, "Body".data) ∧
        ∀ line ∈ splitOnChar '\n' "k1: v1\njunk junk\nk2: v2".data, ∀ k v,
          parseLine line = some (k, v) → (fmLookup m k).isSome) ∧
      (∀ content : List Char, hasHeader content = false →
        parseFMChars content = (none, content))) :=
  ⟨by decide, C6_frontmatter_roundtrip "k1: v1\njunk junk\nk2: v2".data
    "Body".data (by decide)⟩

end LoadSkills
